import Mathlib

/-!
Verification of the transaction-to-CSV-row core of `actual2csv`.

The definitions below are a shallow embedding of `src/csv.go` (types from
`src/actual_client.go`).  Go maps are embedded as partial functions
`String → Option _`; the Go indexing operation `m[k]`, which yields the
zero value of the element type when the key is absent, is `lookupCategory`
/ `lookupPayee`.  The int64 field `Amount` is embedded as `Int` with the
two's-complement wrap-around `int64Wrap` applied at the one arithmetic
operation the source performs on it (`transaction.Amount *= -1`).  Monetary
formatting (`fmt.Sprintf("%.2f", float64(amount)/100.0)`) is embedded by
`sprintfDotTwo`, which models the binary64 pipeline exactly: conversion of
the integer to a double (round to nearest, ties to even), the correctly
rounded float division by 100.0, and the fixed two-fraction-digit decimal
rendering of the resulting double's exact value, again rounding half to
even.  All rounding is carried out in exact integer arithmetic on
numerator/denominator pairs.
-/

namespace Actual2CSV

/-- Embeds `Account` from `src/actual_client.go`. -/
structure Account where
  id : String
  name : String
  closed : Bool
deriving DecidableEq

/-- Embeds `Category`.  The struct in `src/actual_client.go` shows only the
`id` and `name` fields; the `IsIncome` field read by `csv.go` (and described
by the spec's data model as the `is_income` flag) is missing from that
snapshot, so it is included here.  Modelled from the spec: "Category:
identifier, display name, income flag (`is_income`)". -/
structure Category where
  id : String
  name : String
  isIncome : Bool
deriving DecidableEq

/-- Embeds `Payee` from `src/actual_client.go`. -/
structure Payee where
  id : String
  name : String
deriving DecidableEq

/-- Embeds `Transaction` from `src/actual_client.go`. -/
structure Transaction where
  id : String
  accountID : String
  categoryID : String
  amount : Int
  payeeID : String
  notes : String
  date : String
  error : String
deriving DecidableEq

/-- The Go zero value `Category{}` compared against in `transactionToRow`. -/
def Category.zeroVal : Category := ⟨"", "", false⟩

/-- The Go zero value `Payee{}` compared against in `transactionToRow`. -/
def Payee.zeroVal : Payee := ⟨"", ""⟩

/-- A Go `map[string]Category` as a finite partial function. -/
abbrev CategoryMap := String → Option Category

/-- A Go `map[string]Payee` as a finite partial function. -/
abbrev PayeeMap := String → Option Payee

/-- Go map indexing `categoryMap[k]`: the zero value when the key is absent. -/
def lookupCategory (m : CategoryMap) (k : String) : Category :=
  (m k).getD Category.zeroVal

/-- Go map indexing `payeeMap[k]`: the zero value when the key is absent. -/
def lookupPayee (m : PayeeMap) (k : String) : Payee :=
  (m k).getD Payee.zeroVal

/-! Decimal digit strings. -/

/-- Numeric value of a decimal digit character. -/
def charVal (c : Char) : Nat := c.toNat - 48

/-- Value of a big-endian string of decimal digit characters. -/
def valOfDigits (cs : List Char) : Nat :=
  cs.foldl (fun a c => 10 * a + charVal c) 0

/-- Big-endian decimal digits of `n`, with fuel bounding the digit count. -/
def natCharsAux : Nat → Nat → List Char
  | 0, _ => []
  | fuel + 1, n =>
      if n < 10 then [Nat.digitChar n]
      else natCharsAux fuel (n / 10) ++ [Nat.digitChar (n % 10)]

/-- Big-endian decimal digits of `n` (`"0"` for zero), as Go prints the
integer part of the amount.  40 digits of fuel cover every value derived
from an int64 cent amount. -/
def natChars (n : Nat) : List Char := natCharsAux 40 n

/-- The two fraction digits of a cent remainder `r < 100`. -/
def pad2 (r : Nat) : List Char :=
  [Nat.digitChar (r / 10), Nat.digitChar (r % 10)]

/-- Specification-side definition following the spec's words: the decimal
string A/100 rendered with exactly two fraction digits, preserving sign.
The source-faithful renderer is `sprintfDotTwo` below; the two agree on
every amount of magnitude at most 2^52 but diverge beyond the range where
binary64 represents the cent amount exactly. -/
def exactCents (a : Int) : String :=
  String.mk ((if a < 0 then ['-'] else []) ++
    natChars (a.natAbs / 100) ++ '.' :: pad2 (a.natAbs % 100))

/-! The int64 and binary64 arithmetic of the source, in exact integer form. -/

/-- Two's-complement wrap-around of 64-bit signed integer arithmetic, as Go
evaluates `transaction.Amount *= -1` on an int64 (`src/csv.go` line 69):
the result is reduced into [-2^63, 2^63). -/
def int64Wrap (x : Int) : Int :=
  (x + 9223372036854775808) % 18446744073709551616 - 9223372036854775808

/-- Floor of the base-2 logarithm of a natural number, with fuel for 128
bits. -/
def natLog2Aux : Nat → Nat → Nat
  | 0, _ => 0
  | fuel + 1, n => if n < 2 then 0 else natLog2Aux fuel (n / 2) + 1

/-- Floor of the base-2 logarithm (0 for 0). -/
def natLog2 (n : Nat) : Nat := natLog2Aux 128 n

/-- Floor of the base-2 logarithm of the positive fraction n/d: the unique
L with 2^L ≤ n/d < 2^(L+1), computed from the bit lengths of numerator and
denominator plus one correcting comparison. -/
def intLog2F (n d : Nat) : Int :=
  let e0 : Int := (natLog2 n : Int) - (natLog2 d : Int)
  if 0 ≤ e0 then
    (if d * 2 ^ e0.toNat ≤ n then e0 else e0 - 1)
  else
    (if d ≤ n * 2 ^ (-e0).toNat then e0 else e0 - 1)

/-- Round the fraction N/D (with D positive) to the nearest natural number,
ties to even — the IEEE-754 default rounding used both by the float
operations and by Go's fixed-precision decimal formatting. -/
def divRoundEvenN (N D : Nat) : Nat :=
  let q := N / D
  let r := N % D
  if 2 * r < D then q
  else if D < 2 * r then q + 1
  else if q % 2 = 0 then q else q + 1

/-- IEEE-754 binary64 rounding (round to nearest, ties to even) of the
positive fraction n/d in the normal range: the result is the pair (m, e)
with value m·2^e, where m is the 53-bit significand obtained by rounding
(n/d)/2^e at e = ⌊log2 (n/d)⌋ - 52.  Faithful for every value arising from
an int64 cent amount (far from overflow and subnormals). -/
def fl64N (n d : Nat) : Nat × Int :=
  let e : Int := intLog2F n d - 52
  (if 0 ≤ e then divRoundEvenN n (d * 2 ^ e.toNat)
   else divRoundEvenN (n * 2 ^ (-e).toNat) d, e)

/-- The cent value printed by `%.2f` for the int64 amount `a`: the binary64
value of `|a|` is divided by 100.0 (correctly rounded), and the exact value
of the quotient double, times 100, is rounded half-to-even to an integer.
The sign is carried separately: the double's sign always equals the sign of
`a`, since rounding a positive normal value is positive. -/
def sprintfPipeline (a : Int) : Nat :=
  let f1 := fl64N a.natAbs 1
  let q : Nat × Nat :=
    if 0 ≤ f1.2 then (f1.1 * 2 ^ f1.2.toNat, 100)
    else (f1.1, 100 * 2 ^ (-f1.2).toNat)
  let f2 := fl64N q.1 q.2
  if 0 ≤ f2.2 then f2.1 * 2 ^ f2.2.toNat * 100
  else divRoundEvenN (f2.1 * 100) (2 ^ (-f2.2).toNat)

/-- Embeds `fmt.Sprintf("%.2f", float64(a)/100.0)` from `src/csv.go` line
86: the binary64 pipeline of `sprintfPipeline`, rendered with a sign, the
integer dollars, and exactly two fraction digits. -/
def sprintfDotTwo (a : Int) : String :=
  if a = 0 then "0.00"
  else
    String.mk ((if a < 0 then ['-'] else []) ++
      natChars (sprintfPipeline a / 100) ++ '.' :: pad2 (sprintfPipeline a % 100))

/-- The exact rational value of a significand-exponent pair. -/
def flVal (p : Nat × Int) : ℚ := (p.1 : ℚ) * (2:ℚ) ^ p.2

/-- Split a leading minus sign off a character list. -/
def splitSign (cs : List Char) : Bool × List Char :=
  if cs.head? = some '-' then (true, cs.tail) else (false, cs)

/-- Parse a fixed-point decimal string with exactly two fraction digits back
into integer cents; `none` on any other shape.  Used to state that the
rendered amount is the exact decimal for the cent amount. -/
def parseCents (s : String) : Option Int :=
  let sb := splitSign s.data
  let body := sb.2
  let ip := body.takeWhile (fun c => c != '.')
  let rest := body.dropWhile (fun c => c != '.')
  let fp := rest.tail
  if ip ≠ [] ∧ ip.all Char.isDigit ∧ rest ≠ [] ∧ fp.length = 2 ∧ fp.all Char.isDigit then
    let v : Int := ((valOfDigits ip) * 100 + valOfDigits fp : Nat)
    some (if sb.1 then -v else v)
  else
    none

/-- The fixed header row, embedding `headers` from `src/csv.go` lines 9-17. -/
def headers : List String :=
  ["account", "date", "payee", "amount", "category", "notes", "error"]

/-- Embeds `transactionToRow` from `src/csv.go` lines 58-97.  Go passes the
`Transaction` struct by value, so `transaction.Amount *= -1` in the income
branch mutates the function's local copy (wrapping in int64); the second
component of the result is the final value of that local copy, and the
first is the returned row. -/
def transactionToRowTrace (categoryMap : CategoryMap) (payeeMap : PayeeMap)
    (account : Account) (transaction : Transaction) : List String × Transaction :=
  let p := lookupPayee payeeMap transaction.payeeID
  let payeeName := if p ≠ Payee.zeroVal then p.name else "FIXME"
  let c := lookupCategory categoryMap transaction.categoryID
  -- the category branch: flip posting source / destination when is_income
  let step :=
    if c ≠ Category.zeroVal then
      if c.isIncome then
        ({ transaction with amount := int64Wrap (-transaction.amount) },
         c.name, account.name)
      else
        (transaction, account.name, c.name)
    else
      (transaction, "FIXME", "FIXME")
  let transaction := step.1
  let accountName := step.2.1
  let categoryName := step.2.2
  let notes := transaction.notes
  let errorMsg := if transaction.error ≠ "" then "[FIXME] " ++ transaction.error else ""
  let amount := sprintfDotTwo transaction.amount
  ([accountName, transaction.date, payeeName, amount, categoryName, notes, errorMsg],
   transaction)

/-- The row returned by `transactionToRow` in `src/csv.go`. -/
def transactionToRow (categoryMap : CategoryMap) (payeeMap : PayeeMap)
    (account : Account) (transaction : Transaction) : List String :=
  (transactionToRowTrace categoryMap payeeMap account transaction).1

/-- Embeds the loop of `Add` (`src/csv.go` lines 46-50): `range` copies each
element into `txn` and `transactionToRow` receives that copy by value.  The
first component is the `rows` slice built by the loop; the second is the
caller's slice contents as observable after the loop. -/
def addRowsLoop (categoryMap : CategoryMap) (payeeMap : PayeeMap) (acct : Account) :
    List Transaction → List (List String) × List Transaction
  | [] => ([], [])
  | txn :: rest =>
      let row := transactionToRow categoryMap payeeMap acct txn
      let tail := addRowsLoop categoryMap payeeMap acct rest
      (row :: tail.1, txn :: tail.2)

/-- State of `csvWriter` from `src/csv.go` together with its `csv.Writer`:
`buf` holds records accepted by the `csv.Writer` but not yet flushed, `out`
the records flushed to the destination stream, and `flushCount` the number of
`Flush` invocations performed.  The destination is an in-memory stream, so
writes cannot fail. -/
structure CsvWriter where
  categoryMap : CategoryMap
  payeeMap : PayeeMap
  buf : List (List String)
  out : List (List String)
  flushCount : Nat

/-- Embeds `NewCSVWriter` (`src/csv.go` lines 29-40): write the header row,
then flush. -/
def NewCSVWriter (categories : CategoryMap) (payeeMap : PayeeMap) : CsvWriter :=
  { categoryMap := categories
    payeeMap := payeeMap
    buf := []
    out := [headers]
    flushCount := 1 }

/-- Embeds `Add` (`src/csv.go` lines 42-56): early return on an empty batch;
otherwise build the rows, `WriteAll` them (which writes every record and then
flushes), and flush once more. -/
def CsvWriter.Add (w : CsvWriter) (acct : Account) (txns : List Transaction) :
    CsvWriter × Option String :=
  if txns = [] then (w, none)
  else
    let rows := (addRowsLoop w.categoryMap w.payeeMap acct txns).1
    ({ w with
        buf := []
        out := w.out ++ w.buf ++ rows
        flushCount := w.flushCount + 2 },
     none)

/-- A whole run of the writer: initialization followed by one `Add` per
account batch, as `main` drives it. -/
def runBatches (categories : CategoryMap) (payeeMap : PayeeMap)
    (batches : List (Account × List Transaction)) : CsvWriter :=
  batches.foldl (fun w b => (w.Add b.1 b.2).1) (NewCSVWriter categories payeeMap)

/-- The data rows a batch list contributes, in order. -/
def rowsOfBatches (categoryMap : CategoryMap) (payeeMap : PayeeMap) :
    List (Account × List Transaction) → List (List String)
  | [] => []
  | b :: bs =>
      b.2.map (transactionToRow categoryMap payeeMap b.1) ++
        rowsOfBatches categoryMap payeeMap bs

/-! Column-level descriptions of the row, used to state the claims. -/

/-- The payee column as `transactionToRow` computes it. -/
def payeeCol (payeeMap : PayeeMap) (t : Transaction) : String :=
  if lookupPayee payeeMap t.payeeID ≠ Payee.zeroVal then
    (lookupPayee payeeMap t.payeeID).name
  else "FIXME"

/-- The account column as `transactionToRow` computes it. -/
def accountCol (categoryMap : CategoryMap) (a : Account) (t : Transaction) : String :=
  if lookupCategory categoryMap t.categoryID ≠ Category.zeroVal then
    (if (lookupCategory categoryMap t.categoryID).isIncome then
      (lookupCategory categoryMap t.categoryID).name
    else a.name)
  else "FIXME"

/-- The category column as `transactionToRow` computes it. -/
def categoryCol (categoryMap : CategoryMap) (a : Account) (t : Transaction) : String :=
  if lookupCategory categoryMap t.categoryID ≠ Category.zeroVal then
    (if (lookupCategory categoryMap t.categoryID).isIncome then a.name
    else (lookupCategory categoryMap t.categoryID).name)
  else "FIXME"

/-- The cent amount after the income flip (int64-wrapped negation), as
rendered into the row. -/
def effAmount (categoryMap : CategoryMap) (t : Transaction) : Int :=
  if lookupCategory categoryMap t.categoryID ≠ Category.zeroVal ∧
      (lookupCategory categoryMap t.categoryID).isIncome then
    int64Wrap (-t.amount)
  else t.amount

/-- The error column as `transactionToRow` computes it. -/
def errorCol (t : Transaction) : String :=
  if t.error ≠ "" then "[FIXME] " ++ t.error else ""

/-- The row, column by column. -/
theorem transactionToRow_eq (cm : CategoryMap) (pm : PayeeMap)
    (a : Account) (t : Transaction) :
    transactionToRow cm pm a t =
      [accountCol cm a t, t.date, payeeCol pm t, sprintfDotTwo (effAmount cm t),
        categoryCol cm a t, t.notes, errorCol t] := by
  unfold transactionToRow transactionToRowTrace accountCol categoryCol payeeCol
    effAmount errorCol
  by_cases h1 : lookupCategory cm t.categoryID ≠ Category.zeroVal
  · by_cases h2 : (lookupCategory cm t.categoryID).isIncome
    · simp [h1, h2]
    · simp [h1, h2]
  · simp [h1]

/-! Facts about the decimal rendering. -/

theorem digitChar_facts (d : Nat) (h : d < 10) :
    charVal (Nat.digitChar d) = d ∧ (Nat.digitChar d).isDigit = true ∧
      (Nat.digitChar d != '.') = true ∧ Nat.digitChar d ≠ '-' := by
  interval_cases d <;> exact ⟨rfl, rfl, rfl, by decide⟩

theorem valOfDigits_append (xs : List Char) (c : Char) :
    valOfDigits (xs ++ [c]) = 10 * valOfDigits xs + charVal c := by
  simp [valOfDigits, List.foldl_append]

theorem natCharsAux_spec : ∀ fuel n, n < 10 ^ fuel →
    valOfDigits (natCharsAux (fuel + 1) n) = n ∧ natCharsAux (fuel + 1) n ≠ [] ∧
      ∀ c ∈ natCharsAux (fuel + 1) n, ∃ d, d < 10 ∧ c = Nat.digitChar d := by
  intro fuel
  induction fuel with
  | zero =>
      intro n h
      have hn : n = 0 := by simpa using h
      subst hn
      refine ⟨by decide, by decide, ?_⟩
      · simp only [natCharsAux, if_pos (by norm_num : (0:ℕ) < 10), List.mem_singleton]
        rintro c rfl
        exact ⟨0, by norm_num, rfl⟩
  | succ fuel ih =>
      intro n h
      by_cases h10 : n < 10
      · refine ⟨?_, ?_, ?_⟩
        · simp [natCharsAux, h10, valOfDigits, (digitChar_facts n h10).1]
        · simp [natCharsAux, h10]
        · simp only [natCharsAux, h10, if_true, List.mem_singleton]
          rintro c rfl
          exact ⟨n, h10, rfl⟩
      · have hdiv : n / 10 < 10 ^ fuel := by
          rw [pow_succ] at h
          omega
        obtain ⟨hv, hne, hd⟩ := ih (n / 10) hdiv
        have hmod : n % 10 < 10 := by omega
        have hstep : natCharsAux (fuel + 1 + 1) n =
            natCharsAux (fuel + 1) (n / 10) ++ [Nat.digitChar (n % 10)] := by
          rw [natCharsAux, if_neg h10]
        refine ⟨?_, ?_, ?_⟩
        · rw [hstep, valOfDigits_append, hv, (digitChar_facts _ hmod).1]
          omega
        · rw [hstep]
          simp
        · rw [hstep]
          simp only [List.mem_append, List.mem_singleton]
          rintro c (hc | rfl)
          · exact hd c hc
          · exact ⟨n % 10, hmod, rfl⟩

theorem natChars_spec (n : Nat) (h : n < 10 ^ 39) :
    valOfDigits (natChars n) = n ∧ natChars n ≠ [] ∧
      ∀ c ∈ natChars n, ∃ d, d < 10 ∧ c = Nat.digitChar d :=
  natCharsAux_spec 39 n h

theorem pad2_spec (r : Nat) (h : r < 100) :
    valOfDigits (pad2 r) = r ∧ (pad2 r).length = 2 ∧
      (pad2 r).all Char.isDigit = true := by
  have h1 : r / 10 < 10 := by omega
  have h2 : r % 10 < 10 := by omega
  refine ⟨?_, rfl, ?_⟩
  · simp only [pad2, valOfDigits, List.foldl, (digitChar_facts _ h1).1,
      (digitChar_facts _ h2).1]
    omega
  · simp [pad2, (digitChar_facts _ h1).2.1, (digitChar_facts _ h2).2.1]

theorem takeWhile_append_all (p : Char → Bool) (l₁ l₂ : List Char)
    (h : ∀ c ∈ l₁, p c = true) :
    (l₁ ++ l₂).takeWhile p = l₁ ++ l₂.takeWhile p := by
  induction l₁ with
  | nil => simp
  | cons a l ih =>
      have ha := h a (List.mem_cons_self a l)
      simp [List.takeWhile_cons, ha, ih (fun c hc => h c (List.mem_cons_of_mem _ hc))]

theorem dropWhile_append_all (p : Char → Bool) (l₁ l₂ : List Char)
    (h : ∀ c ∈ l₁, p c = true) :
    (l₁ ++ l₂).dropWhile p = l₂.dropWhile p := by
  induction l₁ with
  | nil => simp
  | cons a l ih =>
      have ha := h a (List.mem_cons_self a l)
      simp [List.dropWhile_cons, ha, ih (fun c hc => h c (List.mem_cons_of_mem _ hc))]

theorem takeWhile_dot (xs : List Char) :
    ('.' :: xs).takeWhile (fun c => c != '.') = [] := by
  simp [List.takeWhile_cons]

theorem dropWhile_dot (xs : List Char) :
    ('.' :: xs).dropWhile (fun c => c != '.') = '.' :: xs := by
  simp [List.dropWhile_cons]

/-- Parsing the rendered decimal string back recovers the exact cent
amount: `exactCents a` is the exact decimal for `a / 100` with two fraction
digits. -/
theorem parse_exactCents (a : Int) (ha : a.natAbs < 10 ^ 40) :
    parseCents (exactCents a) = some a := by
  obtain ⟨hqv, hqne, hqd⟩ := natChars_spec (a.natAbs / 100)
    (Nat.div_lt_of_lt_mul (ha.trans_le (by norm_num)))
  have h100 : a.natAbs % 100 < 100 := Nat.mod_lt _ (by norm_num)
  obtain ⟨hrv, hrl, hrd⟩ := pad2_spec _ h100
  have hipdig : (natChars (a.natAbs / 100)).all Char.isDigit = true := by
    rw [List.all_eq_true]
    intro c hc
    obtain ⟨d, hd, hcd⟩ := hqd c hc
    exact hcd ▸ (digitChar_facts d hd).2.1
  have hipdot : ∀ c ∈ natChars (a.natAbs / 100), (c != '.') = true := by
    intro c hc
    obtain ⟨d, hd, hcd⟩ := hqd c hc
    exact hcd ▸ (digitChar_facts d hd).2.2.1
  have htake : ((natChars (a.natAbs / 100) ++ '.' :: pad2 (a.natAbs % 100)).takeWhile
      (fun c => c != '.')) = natChars (a.natAbs / 100) := by
    rw [takeWhile_append_all _ _ _ hipdot, takeWhile_dot, List.append_nil]
  have hdrop : ((natChars (a.natAbs / 100) ++ '.' :: pad2 (a.natAbs % 100)).dropWhile
      (fun c => c != '.')) = '.' :: pad2 (a.natAbs % 100) := by
    rw [dropWhile_append_all _ _ _ hipdot, dropWhile_dot]
  have habs : a.natAbs / 100 * 100 + a.natAbs % 100 = a.natAbs := by omega
  by_cases hneg : a < 0
  · have hdata : (exactCents a).data =
        '-' :: (natChars (a.natAbs / 100) ++ '.' :: pad2 (a.natAbs % 100)) := by
      simp [exactCents, hneg]
    have hsplit : splitSign (exactCents a).data =
        (true, natChars (a.natAbs / 100) ++ '.' :: pad2 (a.natAbs % 100)) := by
      rw [hdata]
      simp [splitSign]
    simp only [parseCents, hsplit]
    rw [htake, hdrop]
    simp only [List.tail_cons]
    rw [if_pos ⟨hqne, hipdig, List.cons_ne_nil _ _, hrl, hrd⟩]
    simp only [if_true]
    rw [hqv, hrv, habs]
    congr 1
    omega
  · have hdata : (exactCents a).data =
        natChars (a.natAbs / 100) ++ '.' :: pad2 (a.natAbs % 100) := by
      simp [exactCents, hneg]
    obtain ⟨c0, cs0, hc0⟩ := List.exists_cons_of_ne_nil hqne
    obtain ⟨d0, hd0, hcd0⟩ := hqd c0 (hc0 ▸ List.mem_cons_self c0 cs0)
    have hnotdash : ¬((natChars (a.natAbs / 100) ++
        '.' :: pad2 (a.natAbs % 100)).head? = some '-') := by
      rw [hc0, List.cons_append, List.head?_cons]
      intro hcon
      have hc0dash : c0 = '-' := by
        injection hcon
      exact (hcd0 ▸ (digitChar_facts d0 hd0).2.2.2) hc0dash
    have hsplit : splitSign (exactCents a).data =
        (false, natChars (a.natAbs / 100) ++ '.' :: pad2 (a.natAbs % 100)) := by
      rw [hdata, splitSign, if_neg hnotdash]
    simp only [parseCents, hsplit]
    rw [htake, hdrop]
    simp only [List.tail_cons]
    rw [if_pos ⟨hqne, hipdig, List.cons_ne_nil _ _, hrl, hrd⟩]
    simp only [if_false, Bool.false_eq_true]
    rw [hqv, hrv, habs]
    congr 1
    omega

/-- The rendered amount cell is never the literal column name `"amount"`:
it is either `"0.00"` or carries a decimal point. -/
theorem sprintfDotTwo_ne_amount (a : Int) : sprintfDotTwo a ≠ "amount" := by
  by_cases h0 : a = 0
  · subst h0
    decide
  · intro h
    have hdot : '.' ∈ (sprintfDotTwo a).data := by
      simp only [sprintfDotTwo, if_neg h0]
      simp [List.mem_append]
    rw [h] at hdot
    exact absurd hdot (by decide)

/-! Loop and writer lemmas. -/

theorem addRowsLoop_fst (cm : CategoryMap) (pm : PayeeMap) (acct : Account)
    (txns : List Transaction) :
    (addRowsLoop cm pm acct txns).1 = txns.map (transactionToRow cm pm acct) := by
  induction txns with
  | nil => rfl
  | cons t ts ih => simp [addRowsLoop, ih]

theorem addRowsLoop_snd (cm : CategoryMap) (pm : PayeeMap) (acct : Account)
    (txns : List Transaction) :
    (addRowsLoop cm pm acct txns).2 = txns := by
  induction txns with
  | nil => rfl
  | cons t ts ih => simp [addRowsLoop, ih]

theorem trace_snd (cm : CategoryMap) (pm : PayeeMap) (a : Account) (t : Transaction) :
    (transactionToRowTrace cm pm a t).2 = { t with amount := effAmount cm t } := by
  unfold transactionToRowTrace effAmount
  by_cases h1 : lookupCategory cm t.categoryID ≠ Category.zeroVal
  · by_cases h2 : (lookupCategory cm t.categoryID).isIncome <;> simp [h1, h2]
  · simp [h1]

theorem foldAdd_spec (bs : List (Account × List Transaction)) :
    ∀ w : CsvWriter, w.buf = [] →
      (bs.foldl (fun w b => (w.Add b.1 b.2).1) w).out
          = w.out ++ rowsOfBatches w.categoryMap w.payeeMap bs
        ∧ (bs.foldl (fun w b => (w.Add b.1 b.2).1) w).buf = [] := by
  induction bs with
  | nil =>
      intro w hw
      simp [rowsOfBatches, hw]
  | cons b bs ih =>
      intro w hw
      by_cases hb : b.2 = []
      · have hstep : (w.Add b.1 b.2).1 = w := by simp [CsvWriter.Add, hb]
        simp only [List.foldl_cons, hstep]
        obtain ⟨h1, h2⟩ := ih w hw
        refine ⟨?_, h2⟩
        rw [h1]
        simp [rowsOfBatches, hb]
      · have hstep : (w.Add b.1 b.2).1 =
            { w with
              buf := []
              out := w.out ++ w.buf ++ (addRowsLoop w.categoryMap w.payeeMap b.1 b.2).1
              flushCount := w.flushCount + 2 } := by
          simp [CsvWriter.Add, hb]
        simp only [List.foldl_cons, hstep]
        obtain ⟨h1, h2⟩ := ih { w with
          buf := []
          out := w.out ++ w.buf ++ (addRowsLoop w.categoryMap w.payeeMap b.1 b.2).1
          flushCount := w.flushCount + 2 } rfl
        refine ⟨?_, h2⟩
        rw [h1]
        simp [rowsOfBatches, hw, addRowsLoop_fst, List.append_assoc]

theorem row_ne_headers (cm : CategoryMap) (pm : PayeeMap) (a : Account)
    (t : Transaction) : transactionToRow cm pm a t ≠ headers := by
  intro h
  have h3 := congrArg (fun l => l[3]?) h
  rw [transactionToRow_eq] at h3
  simp [headers] at h3
  exact sprintfDotTwo_ne_amount _ h3

theorem headers_not_mem_rows (cm : CategoryMap) (pm : PayeeMap)
    (bs : List (Account × List Transaction)) :
    headers ∉ rowsOfBatches cm pm bs := by
  induction bs with
  | nil => simp [rowsOfBatches]
  | cons b bs ih =>
      intro hmem
      rcases List.mem_append.mp hmem with h | h
      · obtain ⟨t, _, heq⟩ := List.mem_map.mp h
        exact row_ne_headers cm pm b.1 t heq
      · exact ih h

theorem exactCents_head_dash (A : Int) (ha : A.natAbs < 10 ^ 40) :
    (exactCents A).data.head? = some '-' ↔ A < 0 := by
  by_cases hA : A < 0
  · simp [exactCents, hA]
  · obtain ⟨_, hne, hd⟩ := natChars_spec (A.natAbs / 100)
      (Nat.div_lt_of_lt_mul (ha.trans_le (by norm_num)))
    obtain ⟨c0, cs0, hc0⟩ := List.exists_cons_of_ne_nil hne
    obtain ⟨d0, hd0, hcd0⟩ := hd c0 (hc0 ▸ List.mem_cons_self c0 cs0)
    have hhead : (exactCents A).data.head? = some c0 := by
      simp [exactCents, hA, hc0]
    rw [hhead]
    have hc0dash : c0 ≠ '-' := by
      rw [hcd0]
      exact (digitChar_facts d0 hd0).2.2.2
    refine iff_of_false ?_ hA
    intro hsome
    have : c0 = '-' := by injection hsome
    exact hc0dash this

/-! Correctness of the integer binary64 model. -/

theorem int64Wrap_eq_self (x : Int) (h1 : -9223372036854775808 ≤ x)
    (h2 : x < 9223372036854775808) : int64Wrap x = x := by
  unfold int64Wrap
  omega

theorem natLog2Aux_spec : ∀ fuel n, 1 ≤ n → n < 2 ^ fuel →
    2 ^ natLog2Aux fuel n ≤ n ∧ n < 2 ^ (natLog2Aux fuel n + 1) := by
  intro fuel
  induction fuel with
  | zero =>
      intro n h1 h2
      exfalso
      simp at h2
      omega
  | succ fuel ih =>
      intro n h1 h2
      by_cases h : n < 2
      · simp only [natLog2Aux, h, if_true]
        constructor
        · simpa using h1
        · simpa using h
      · have hdiv1 : 1 ≤ n / 2 := by omega
        have hdiv2 : n / 2 < 2 ^ fuel := by
          rw [pow_succ] at h2
          omega
        obtain ⟨ha, hb⟩ := ih (n / 2) hdiv1 hdiv2
        simp only [natLog2Aux, h, if_false]
        constructor
        · rw [pow_succ]
          omega
        · rw [pow_succ]
          omega

theorem natLog2_spec (n : Nat) (h1 : 1 ≤ n) (h2 : n < 2 ^ 128) :
    2 ^ natLog2 n ≤ n ∧ n < 2 ^ (natLog2 n + 1) :=
  natLog2Aux_spec 128 n h1 h2

theorem two_zpow_pos (e : Int) : (0:ℚ) < 2 ^ e :=
  zpow_pos (by norm_num) e

theorem two_zpow_toNat (e : Int) (he : 0 ≤ e) :
    (2:ℚ) ^ e = (2:ℚ) ^ e.toNat := by
  rw [← zpow_natCast]
  congr 1
  omega

theorem two_zpow_neg_toNat (e : Int) (he : e < 0) :
    (2:ℚ) ^ e = 1 / (2:ℚ) ^ (-e).toNat := by
  rw [← zpow_natCast, one_div, ← zpow_neg]
  congr 1
  omega

/-- The computed exponent really is the floor of the base-2 logarithm of
n/d. -/
theorem intLog2F_spec (n d : Nat) (hn1 : 1 ≤ n) (hn2 : n < 2 ^ 120)
    (hd1 : 1 ≤ d) (hd2 : d < 2 ^ 120) :
    (2:ℚ) ^ intLog2F n d ≤ (n : ℚ) / (d : ℚ) ∧
      (n : ℚ) / (d : ℚ) < (2:ℚ) ^ (intLog2F n d + 1) := by
  obtain ⟨hbn1, hbn2⟩ := natLog2_spec n hn1 (hn2.trans (by norm_num))
  obtain ⟨hbd1, hbd2⟩ := natLog2_spec d hd1 (hd2.trans (by norm_num))
  have hdq : (0:ℚ) < (d:ℚ) := by exact_mod_cast hd1
  set bn := natLog2 n with hbn
  set bd := natLog2 d with hbd
  have hQn1 : (2:ℚ) ^ bn ≤ (n:ℚ) := by exact_mod_cast hbn1
  have hQn2 : (n:ℚ) < (2:ℚ) ^ (bn + 1) := by exact_mod_cast hbn2
  have hQd1 : (2:ℚ) ^ bd ≤ (d:ℚ) := by exact_mod_cast hbd1
  have hQd2 : (d:ℚ) < (2:ℚ) ^ (bd + 1) := by exact_mod_cast hbd2
  have hdef : intLog2F n d =
      (if 0 ≤ ((bn : Int) - (bd : Int)) then
        (if d * 2 ^ ((bn : Int) - (bd : Int)).toNat ≤ n then ((bn : Int) - (bd : Int))
         else ((bn : Int) - (bd : Int)) - 1)
       else
        (if d ≤ n * 2 ^ (-((bn : Int) - (bd : Int))).toNat then ((bn : Int) - (bd : Int))
         else ((bn : Int) - (bd : Int)) - 1)) := rfl
  set e0 : Int := (bn : Int) - (bd : Int) with he0
  have hup : (n:ℚ) / d < (2:ℚ) ^ (e0 + 1) := by
    rw [div_lt_iff₀ hdq]
    calc (n:ℚ) < (2:ℚ) ^ (bn + 1) := hQn2
      _ = (2:ℚ) ^ (e0 + 1) * (2:ℚ) ^ ((bd : ℕ) : ℤ) := by
          rw [← zpow_natCast (2:ℚ) (bn + 1), ← zpow_add₀ (by norm_num : (2:ℚ) ≠ 0)]
          congr 1
          omega
      _ ≤ (2:ℚ) ^ (e0 + 1) * (d:ℚ) := by
          refine mul_le_mul_of_nonneg_left ?_ (le_of_lt (two_zpow_pos _))
          rw [zpow_natCast]
          exact hQd1
  have hlow : (2:ℚ) ^ (e0 - 1) ≤ (n:ℚ) / d := by
    rw [le_div_iff₀ hdq]
    calc (2:ℚ) ^ (e0 - 1) * (d:ℚ)
        ≤ (2:ℚ) ^ (e0 - 1) * (2:ℚ) ^ (((bd + 1 : ℕ)) : ℤ) := by
          refine mul_le_mul_of_nonneg_left ?_ (le_of_lt (two_zpow_pos _))
          rw [zpow_natCast]
          exact le_of_lt hQd2
      _ = (2:ℚ) ^ ((bn : ℕ) : ℤ) := by
          rw [← zpow_add₀ (by norm_num : (2:ℚ) ≠ 0)]
          congr 1
          omega
      _ ≤ (n:ℚ) := by
          rw [zpow_natCast]
          exact hQn1
  rw [hdef]
  by_cases h0 : 0 ≤ e0
  · rw [if_pos h0]
    by_cases ht : d * 2 ^ e0.toNat ≤ n
    · rw [if_pos ht]
      refine ⟨?_, hup⟩
      rw [le_div_iff₀ hdq, two_zpow_toNat e0 h0]
      have hNat : 2 ^ e0.toNat * d ≤ n := by rw [Nat.mul_comm]; exact ht
      calc (2:ℚ) ^ e0.toNat * (d:ℚ) = ((2 ^ e0.toNat * d : ℕ) : ℚ) := by push_cast; ring
        _ ≤ (n:ℚ) := by exact_mod_cast hNat
    · rw [if_neg ht]
      have hE : e0 - 1 + 1 = e0 := by omega
      refine ⟨hlow, ?_⟩
      rw [hE, div_lt_iff₀ hdq, two_zpow_toNat e0 h0]
      have hNat : n < 2 ^ e0.toNat * d := by
        rw [Nat.mul_comm]
        exact Nat.lt_of_not_le ht
      calc (n:ℚ) < ((2 ^ e0.toNat * d : ℕ) : ℚ) := by exact_mod_cast hNat
        _ = (2:ℚ) ^ e0.toNat * (d:ℚ) := by push_cast; ring
  · rw [if_neg h0]
    have he0neg : e0 < 0 := by omega
    have hsimp : ∀ x : ℚ, (2:ℚ) ^ e0 * (x * (2:ℚ) ^ (-e0).toNat) = x := by
      intro x
      rw [← zpow_natCast (2:ℚ) (-e0).toNat,
        show (2:ℚ) ^ e0 * (x * (2:ℚ) ^ (((-e0).toNat : ℕ) : ℤ)) =
          x * ((2:ℚ) ^ e0 * (2:ℚ) ^ (((-e0).toNat : ℕ) : ℤ)) from by ring,
        ← zpow_add₀ (by norm_num : (2:ℚ) ≠ 0),
        show e0 + (((-e0).toNat : ℕ) : ℤ) = 0 from by omega, zpow_zero, mul_one]
    by_cases ht : d ≤ n * 2 ^ (-e0).toNat
    · rw [if_pos ht]
      refine ⟨?_, hup⟩
      rw [le_div_iff₀ hdq]
      have hcast : (d:ℚ) ≤ (n:ℚ) * (2:ℚ) ^ (-e0).toNat := by exact_mod_cast ht
      calc (2:ℚ) ^ e0 * (d:ℚ)
          ≤ (2:ℚ) ^ e0 * ((n:ℚ) * (2:ℚ) ^ (-e0).toNat) :=
            mul_le_mul_of_nonneg_left hcast (le_of_lt (two_zpow_pos _))
        _ = (n:ℚ) := hsimp _
    · rw [if_neg ht]
      have hE : e0 - 1 + 1 = e0 := by omega
      refine ⟨hlow, ?_⟩
      rw [hE, div_lt_iff₀ hdq]
      have hcast : (n:ℚ) * (2:ℚ) ^ (-e0).toNat < (d:ℚ) := by
        exact_mod_cast Nat.lt_of_not_le ht
      have key := mul_lt_mul_of_pos_left hcast (two_zpow_pos e0)
      rw [hsimp] at key
      linarith [key]

theorem divRoundEvenN_err (N D : Nat) (hD : 1 ≤ D) :
    |((divRoundEvenN N D : ℕ) : ℚ) - (N:ℚ) / D| ≤ 1 / 2 := by
  have hDq : (0:ℚ) < (D:ℚ) := by exact_mod_cast hD
  have hmod : N % D < D := Nat.mod_lt _ (by omega)
  have hNq : (D:ℚ) * ((N / D : ℕ):ℚ) + ((N % D : ℕ):ℚ) = (N:ℚ) := by
    exact_mod_cast Nat.div_add_mod N D
  have hrepr : (N:ℚ) / D = ((N / D : ℕ):ℚ) + ((N % D : ℕ):ℚ) / D := by
    field_simp
    linarith [hNq]
  have hr0 : (0:ℚ) ≤ ((N % D : ℕ):ℚ) / D := by positivity
  simp only [divRoundEvenN]
  by_cases h1 : 2 * (N % D) < D
  · rw [if_pos h1, hrepr]
    have hc : ((2 * (N % D) : ℕ) : ℚ) < (D:ℚ) := by exact_mod_cast h1
    push_cast at hc
    have hhalf : ((N % D : ℕ):ℚ) / D < 1 / 2 := by
      rw [div_lt_iff₀ hDq]
      linarith
    rw [show ((N / D : ℕ):ℚ) - (((N / D : ℕ):ℚ) + ((N % D : ℕ):ℚ) / D)
        = -(((N % D : ℕ):ℚ) / D) from by ring, abs_neg, abs_of_nonneg hr0]
    linarith
  · by_cases h2 : D < 2 * (N % D)
    · rw [if_neg h1, if_pos h2, hrepr]
      have hc : (D:ℚ) < ((2 * (N % D) : ℕ) : ℚ) := by exact_mod_cast h2
      push_cast at hc
      have hhalf : 1 / 2 < ((N % D : ℕ):ℚ) / D := by
        rw [lt_div_iff₀ hDq]
        linarith
      have hrq : ((N % D : ℕ):ℚ) / D < 1 := by
        rw [div_lt_iff₀ hDq]
        have : ((N % D : ℕ):ℚ) < (D:ℚ) := by exact_mod_cast hmod
        linarith
      push_cast
      rw [show ((N / D : ℕ):ℚ) + 1 - (((N / D : ℕ):ℚ) + ((N % D : ℕ):ℚ) / D)
          = 1 - ((N % D : ℕ):ℚ) / D from by ring, abs_of_nonneg (by linarith)]
      linarith
    · have htieN : 2 * (N % D) = D := by omega
      have htie : ((N % D : ℕ):ℚ) / D = 1 / 2 := by
        have hc : ((2 * (N % D) : ℕ) : ℚ) = (D:ℚ) := by exact_mod_cast htieN
        push_cast at hc
        rw [div_eq_div_iff (ne_of_gt hDq) (by norm_num : (2:ℚ) ≠ 0)]
        linarith
      rw [if_neg h1, if_neg h2]
      by_cases h3 : N / D % 2 = 0
      · rw [if_pos h3, hrepr,
          show ((N / D : ℕ):ℚ) - (((N / D : ℕ):ℚ) + ((N % D : ℕ):ℚ) / D)
            = -(((N % D : ℕ):ℚ) / D) from by ring, abs_neg, abs_of_nonneg hr0, htie]
      · rw [if_neg h3, hrepr]
        push_cast
        rw [show ((N / D : ℕ):ℚ) + 1 - (((N / D : ℕ):ℚ) + ((N % D : ℕ):ℚ) / D)
            = 1 - ((N % D : ℕ):ℚ) / D from by ring, htie,
          show (1:ℚ) - 1/2 = 1/2 from by norm_num,
          abs_of_nonneg (by norm_num : (0:ℚ) ≤ 1/2)]

theorem divRoundEvenN_eq (N D z : Nat) (hD : 1 ≤ D)
    (h : |(N:ℚ) / D - (z:ℚ)| < 1 / 2) : divRoundEvenN N D = z := by
  have hDq : (0:ℚ) < (D:ℚ) := by exact_mod_cast hD
  have hmod : N % D < D := Nat.mod_lt _ (by omega)
  have hNq : (D:ℚ) * ((N / D : ℕ):ℚ) + ((N % D : ℕ):ℚ) = (N:ℚ) := by
    exact_mod_cast Nat.div_add_mod N D
  have hrepr : (N:ℚ) / D = ((N / D : ℕ):ℚ) + ((N % D : ℕ):ℚ) / D := by
    field_simp
    linarith [hNq]
  have hr0 : (0:ℚ) ≤ ((N % D : ℕ):ℚ) / D := by positivity
  have hrq : ((N % D : ℕ):ℚ) / D < 1 := by
    rw [div_lt_iff₀ hDq]
    have : ((N % D : ℕ):ℚ) < (D:ℚ) := by exact_mod_cast hmod
    linarith
  rw [abs_lt] at h
  obtain ⟨hL, hR⟩ := h
  rw [hrepr] at hL hR
  by_cases hzq : z ≤ N / D
  · have hq : N / D = z := by
      by_contra hne
      have hge : z + 1 ≤ N / D := by omega
      have hcast : (z:ℚ) + 1 ≤ ((N / D : ℕ):ℚ) := by exact_mod_cast hge
      linarith
    have hρ : ((N % D : ℕ):ℚ) / D < 1 / 2 := by
      have hcast : ((N / D : ℕ):ℚ) = (z:ℚ) := by exact_mod_cast hq
      rw [hcast] at hR
      linarith
    have hbr : 2 * (N % D) < D := by
      by_contra hc
      have hge : (D:ℚ) ≤ ((2 * (N % D) : ℕ):ℚ) := by exact_mod_cast Nat.le_of_not_lt hc
      push_cast at hge
      rw [div_lt_iff₀ hDq] at hρ
      linarith
    simp only [divRoundEvenN]
    rw [if_pos hbr]
    exact hq
  · have hzq' : N / D < z := Nat.lt_of_not_le hzq
    have hq : z = N / D + 1 := by
      by_contra hne
      have hge : N / D + 2 ≤ z := by omega
      have hcast : ((N / D : ℕ):ℚ) + 2 ≤ (z:ℚ) := by exact_mod_cast hge
      linarith
    have hρ : 1 / 2 < ((N % D : ℕ):ℚ) / D := by
      have hcast : (z:ℚ) = ((N / D : ℕ):ℚ) + 1 := by exact_mod_cast hq
      rw [hcast] at hL
      linarith
    have hbr : D < 2 * (N % D) := by
      by_contra hc
      have hge : ((2 * (N % D) : ℕ):ℚ) ≤ (D:ℚ) := by exact_mod_cast Nat.le_of_not_lt hc
      push_cast at hge
      rw [lt_div_iff₀ hDq] at hρ
      linarith
    simp only [divRoundEvenN]
    rw [if_neg (by omega : ¬ 2 * (N % D) < D), if_pos hbr]
    omega

theorem divRoundEvenN_one (M : Nat) : divRoundEvenN M 1 = M := by
  simp [divRoundEvenN, Nat.mod_one, Nat.div_one]

theorem divRoundEvenN_exact (N D : Nat) (hD : 1 ≤ D) (h : D ∣ N) :
    divRoundEvenN N D = N / D := by
  have hm : N % D = 0 := Nat.mod_eq_zero_of_dvd h
  simp only [divRoundEvenN]
  rw [hm, if_pos (by omega)]

theorem divRound_scaled_pos (n d : Nat) (e : Int) (he : 0 ≤ e) (hd1 : 1 ≤ d) :
    |((divRoundEvenN n (d * 2 ^ e.toNat) : ℕ) : ℚ) - ((n:ℚ) / d) / (2:ℚ) ^ e|
      ≤ 1 / 2 := by
  have h2 : 0 < 2 ^ e.toNat := Nat.pos_pow_of_pos _ (by norm_num)
  have hD : 1 ≤ d * 2 ^ e.toNat := Nat.mul_pos (by omega) h2
  have herr := divRoundEvenN_err n (d * 2 ^ e.toNat) hD
  have hcast : ((d * 2 ^ e.toNat : ℕ) : ℚ) = (d:ℚ) * (2:ℚ) ^ e := by
    push_cast
    rw [two_zpow_toNat e he]
  rw [hcast, ← div_div] at herr
  exact herr

theorem divRound_scaled_neg (n d : Nat) (e : Int) (he : e < 0) (hd1 : 1 ≤ d) :
    |((divRoundEvenN (n * 2 ^ (-e).toNat) d : ℕ) : ℚ) - ((n:ℚ) / d) / (2:ℚ) ^ e|
      ≤ 1 / 2 := by
  have hdq : (0:ℚ) < (d:ℚ) := by exact_mod_cast hd1
  have herr := divRoundEvenN_err (n * 2 ^ (-e).toNat) d hd1
  have hcast : ((n * 2 ^ (-e).toNat : ℕ) : ℚ) = (n:ℚ) * (2:ℚ) ^ ((-e).toNat) := by
    push_cast
    ring
  rw [hcast] at herr
  have hx : (n:ℚ) * (2:ℚ) ^ ((-e).toNat) / d = ((n:ℚ) / d) / (2:ℚ) ^ e := by
    rw [two_zpow_neg_toNat e he]
    have h2 : ((2:ℚ) ^ ((-e).toNat)) ≠ 0 := by positivity
    field_simp
  rw [hx] at herr
  exact herr

theorem fl64N_spec (n d : Nat) (hn1 : 1 ≤ n) (hn2 : n < 2 ^ 120)
    (hd1 : 1 ≤ d) (hd2 : d < 2 ^ 120) :
    |flVal (fl64N n d) - (n:ℚ) / d| ≤ (2:ℚ) ^ (intLog2F n d - 53) ∧
      1 ≤ (fl64N n d).1 := by
  obtain ⟨hlog1, _⟩ := intLog2F_spec n d hn1 hn2 hd1 hd2
  have hscaled : |(((fl64N n d).1 : ℕ) : ℚ) -
      ((n:ℚ) / d) / (2:ℚ) ^ (intLog2F n d - 52)| ≤ 1 / 2 := by
    by_cases he : 0 ≤ intLog2F n d - 52
    · have h1 : (fl64N n d).1 = divRoundEvenN n (d * 2 ^ (intLog2F n d - 52).toNat) := by
        simp only [fl64N]
        rw [if_pos he]
      rw [h1]
      exact divRound_scaled_pos n d _ he hd1
    · have h1 : (fl64N n d).1 =
          divRoundEvenN (n * 2 ^ (-(intLog2F n d - 52)).toNat) d := by
        simp only [fl64N]
        rw [if_neg he]
      rw [h1]
      exact divRound_scaled_neg n d _ (by omega) hd1
  have h2e : (0:ℚ) < (2:ℚ) ^ (intLog2F n d - 52) := two_zpow_pos _
  have hsnd : (fl64N n d).2 = intLog2F n d - 52 := by simp only [fl64N]
  constructor
  · have hval : flVal (fl64N n d) =
        (((fl64N n d).1 : ℕ) : ℚ) * (2:ℚ) ^ (intLog2F n d - 52) := by
      rw [flVal, hsnd]
    rw [hval]
    have key : |((((fl64N n d).1 : ℕ) : ℚ) -
        ((n:ℚ) / d) / (2:ℚ) ^ (intLog2F n d - 52)) * (2:ℚ) ^ (intLog2F n d - 52)|
        ≤ (1 / 2) * (2:ℚ) ^ (intLog2F n d - 52) := by
      rw [abs_mul, abs_of_pos h2e]
      exact mul_le_mul_of_nonneg_right hscaled (le_of_lt h2e)
    have hexpand : ((((fl64N n d).1 : ℕ) : ℚ) -
        ((n:ℚ) / d) / (2:ℚ) ^ (intLog2F n d - 52)) * (2:ℚ) ^ (intLog2F n d - 52)
        = (((fl64N n d).1 : ℕ) : ℚ) * (2:ℚ) ^ (intLog2F n d - 52) - (n:ℚ) / d := by
      field_simp
      ring
    rw [hexpand] at key
    have hhalf : (1 / 2) * (2:ℚ) ^ (intLog2F n d - 52) = (2:ℚ) ^ (intLog2F n d - 53) := by
      rw [show intLog2F n d - 53 = -1 + (intLog2F n d - 52) from by omega,
        zpow_add₀ (by norm_num : (2:ℚ) ≠ 0)]
      norm_num
    rw [hhalf] at key
    exact key
  · have hge : ((2:ℚ)) ^ (52:ℕ) ≤ ((n:ℚ) / d) / (2:ℚ) ^ (intLog2F n d - 52) := by
      rw [le_div_iff₀ h2e]
      calc (2:ℚ) ^ (52:ℕ) * (2:ℚ) ^ (intLog2F n d - 52) = (2:ℚ) ^ (intLog2F n d) := by
            rw [← zpow_natCast (2:ℚ) 52, ← zpow_add₀ (by norm_num : (2:ℚ) ≠ 0)]
            congr 1
            omega
        _ ≤ (n:ℚ) / d := hlog1
    rw [abs_le] at hscaled
    by_contra hm
    have hm0 : (fl64N n d).1 = 0 := by omega
    rw [hm0] at hscaled
    have hup := hscaled.1
    push_cast at hup
    have h52 : (4:ℚ) ≤ (2:ℚ) ^ (52:ℕ) := by norm_num
    linarith [hge]

theorem fl64N_int (N : Nat) (h1 : 1 ≤ N) (h2 : N ≤ 2 ^ 53) :
    flVal (fl64N N 1) = (N:ℚ) := by
  have hn2 : N < 2 ^ 120 := lt_of_le_of_lt h2 (by norm_num)
  obtain ⟨hlog1, hlog2⟩ := intLog2F_spec N 1 h1 hn2 (by norm_num) (by norm_num)
  rw [show ((1:ℕ):ℚ) = (1:ℚ) from by norm_num, div_one] at hlog1 hlog2
  have hL53 : intLog2F N 1 ≤ 53 := by
    by_contra hc
    have h54 : ((54:ℕ) : ℤ) ≤ intLog2F N 1 := by omega
    have hz : (2:ℚ) ^ (((54:ℕ)) : ℤ) ≤ (2:ℚ) ^ intLog2F N 1 :=
      zpow_le_zpow_right₀ (by norm_num) h54
    rw [zpow_natCast] at hz
    have hN53 : (N:ℚ) ≤ ((2:ℚ)) ^ (53:ℕ) := by exact_mod_cast h2
    have hlt : ((2:ℚ)) ^ (53:ℕ) < (2:ℚ) ^ (54:ℕ) := by norm_num
    linarith [hlog1]
  have hL0 : 0 ≤ intLog2F N 1 := by
    by_contra hc
    have hle : (2:ℚ) ^ (intLog2F N 1 + 1) ≤ (2:ℚ) ^ (0:ℤ) :=
      zpow_le_zpow_right₀ (by norm_num) (by omega)
    rw [zpow_zero] at hle
    have hN1 : (1:ℚ) ≤ (N:ℚ) := by exact_mod_cast h1
    linarith [hlog2]
  have hsnd : (fl64N N 1).2 = intLog2F N 1 - 52 := by simp only [fl64N]
  by_cases hee : 0 ≤ intLog2F N 1 - 52
  · have hdvd : (1 * 2 ^ (intLog2F N 1 - 52).toNat) ∣ N := by
      rcases (by omega : intLog2F N 1 - 52 = 0 ∨ intLog2F N 1 - 52 = 1) with h | h
      · rw [h]
        norm_num
      · rw [h]
        have hNeq : N = 2 ^ 53 := by
          have hge : (2:ℚ) ^ (53:ℕ) ≤ (N:ℚ) := by
            have h53 := hlog1
            rw [show intLog2F N 1 = ((53:ℕ) : ℤ) from by omega, zpow_natCast] at h53
            exact h53
          have hge' : (2:ℕ) ^ 53 ≤ N := by exact_mod_cast hge
          omega
        rw [hNeq]
        norm_num
    have hD : 1 ≤ 1 * 2 ^ (intLog2F N 1 - 52).toNat := by
      have := Nat.pos_pow_of_pos (intLog2F N 1 - 52).toNat (show 0 < 2 by norm_num)
      omega
    have hfst : (fl64N N 1).1 = N / (1 * 2 ^ (intLog2F N 1 - 52).toNat) := by
      simp only [fl64N]
      rw [if_pos hee, divRoundEvenN_exact _ _ hD hdvd]
    have hND : N / (1 * 2 ^ (intLog2F N 1 - 52).toNat) *
        (1 * 2 ^ (intLog2F N 1 - 52).toNat) = N := Nat.div_mul_cancel hdvd
    rw [flVal, hsnd, hfst, two_zpow_toNat _ hee]
    rw [show ((N / (1 * 2 ^ (intLog2F N 1 - 52).toNat) : ℕ) : ℚ) *
        (2:ℚ) ^ (intLog2F N 1 - 52).toNat
        = ((N / (1 * 2 ^ (intLog2F N 1 - 52).toNat) *
            (1 * 2 ^ (intLog2F N 1 - 52).toNat) : ℕ) : ℚ) from by push_cast; ring]
    rw [hND]
  · have hfst : (fl64N N 1).1 = N * 2 ^ (-(intLog2F N 1 - 52)).toNat := by
      simp only [fl64N]
      rw [if_neg hee, divRoundEvenN_one]
    rw [flVal, hsnd, hfst]
    push_cast
    rw [mul_assoc, ← zpow_natCast (2:ℚ) (-(intLog2F N 1 - 52)).toNat,
      ← zpow_add₀ (by norm_num : (2:ℚ) ≠ 0),
      show ((-(intLog2F N 1 - 52)).toNat : ℤ) + (intLog2F N 1 - 52) = 0 from by omega,
      zpow_zero, mul_one]

/-- Rounding the quotient double back to cents recovers the exact cent
amount, for any representation (q1, q2) of N/100 with N ≤ 2^52: the float
division error stays below half a cent. -/
theorem pipelineTail (N q1 q2 : Nat)
    (hval : (q1:ℚ) / q2 = (N:ℚ) / 100)
    (h2 : N ≤ 2 ^ 52)
    (hq11 : 1 ≤ q1) (hq12 : q1 < 2 ^ 120) (hq21 : 1 ≤ q2) (hq22 : q2 < 2 ^ 120) :
    (if 0 ≤ (fl64N q1 q2).2 then (fl64N q1 q2).1 * 2 ^ (fl64N q1 q2).2.toNat * 100
     else divRoundEvenN ((fl64N q1 q2).1 * 100) (2 ^ (-(fl64N q1 q2).2).toNat)) = N := by
  obtain ⟨hlog1, hlog2⟩ := intLog2F_spec q1 q2 hq11 hq12 hq21 hq22
  obtain ⟨herr, hm1⟩ := fl64N_spec q1 q2 hq11 hq12 hq21 hq22
  rw [hval] at hlog1 hlog2 herr
  have hL45 : intLog2F q1 q2 ≤ 45 := by
    by_contra hc
    have h46 : ((46:ℕ) : ℤ) ≤ intLog2F q1 q2 := by omega
    have hz : (2:ℚ) ^ (((46:ℕ)) : ℤ) ≤ (2:ℚ) ^ intLog2F q1 q2 :=
      zpow_le_zpow_right₀ (by norm_num) h46
    rw [zpow_natCast] at hz
    have hub : (N:ℚ) / 100 < (2:ℚ) ^ (46:ℕ) := by
      have hN : (N:ℚ) ≤ ((2:ℚ)) ^ (52:ℕ) := by exact_mod_cast h2
      rw [div_lt_iff₀ (by norm_num : (0:ℚ) < 100)]
      have hpow : ((2:ℚ)) ^ (52:ℕ) < (2:ℚ) ^ (46:ℕ) * 100 := by norm_num
      linarith
    linarith [hlog1]
  have hsnd : (fl64N q1 q2).2 = intLog2F q1 q2 - 52 := by simp only [fl64N]
  have he2 : (fl64N q1 q2).2 < 0 := by omega
  rw [if_neg (by omega : ¬ 0 ≤ (fl64N q1 q2).2)]
  have hbound : (2:ℚ) ^ (intLog2F q1 q2 - 53) ≤ (2:ℚ) ^ (-8:ℤ) :=
    zpow_le_zpow_right₀ (by norm_num) (by omega)
  have h256 : (2:ℚ) ^ (-8:ℤ) = 1 / 256 := by
    rw [show (-8:ℤ) = -((8:ℕ):ℤ) from rfl, zpow_neg, zpow_natCast]
    norm_num
  apply divRoundEvenN_eq
  · have := Nat.pos_pow_of_pos (-(fl64N q1 q2).2).toNat (show 0 < 2 by norm_num)
    omega
  · have hjval : ((2 ^ (-(fl64N q1 q2).2).toNat : ℕ) : ℚ)
        = ((2:ℚ) ^ (intLog2F q1 q2 - 52))⁻¹ := by
      push_cast
      rw [← zpow_natCast (2:ℚ) (-(fl64N q1 q2).2).toNat, ← zpow_neg]
      congr 1
      omega
    have hval2 : (((fl64N q1 q2).1 * 100 : ℕ) : ℚ) /
        ((2 ^ (-(fl64N q1 q2).2).toNat : ℕ) : ℚ)
        = flVal (fl64N q1 q2) * 100 := by
      rw [hjval, flVal, hsnd]
      push_cast
      rw [div_inv_eq_mul]
      ring
    rw [hval2]
    rw [show flVal (fl64N q1 q2) * 100 - (N:ℚ)
        = (flVal (fl64N q1 q2) - (N:ℚ) / 100) * 100 from by ring,
      abs_mul, abs_of_pos (show (0:ℚ) < 100 from by norm_num)]
    calc |flVal (fl64N q1 q2) - (N:ℚ) / 100| * 100
        ≤ (2:ℚ) ^ (intLog2F q1 q2 - 53) * 100 :=
          mul_le_mul_of_nonneg_right herr (by norm_num)
      _ ≤ (1 / 256) * 100 := by
          rw [← h256]
          exact mul_le_mul_of_nonneg_right hbound (by norm_num)
      _ < 1 / 2 := by norm_num

/-- The full pipeline is exact on cent amounts up to 2^52 in magnitude. -/
theorem sprintfPipeline_eq (A : Int) (h1 : A ≠ 0) (hA : A.natAbs ≤ 2 ^ 52) :
    sprintfPipeline A = A.natAbs := by
  have hN1 : 1 ≤ A.natAbs := by omega
  have hfl1 : flVal (fl64N A.natAbs 1) = (A.natAbs : ℚ) :=
    fl64N_int A.natAbs hN1 (hA.trans (by norm_num))
  obtain ⟨hlog1, hlog2⟩ := intLog2F_spec A.natAbs 1 hN1
    (lt_of_le_of_lt hA (by norm_num)) (by norm_num) (by norm_num)
  rw [show ((1:ℕ):ℚ) = (1:ℚ) from by norm_num, div_one] at hlog1 hlog2
  have hL0 : 0 ≤ intLog2F A.natAbs 1 := by
    by_contra hc
    have hle : (2:ℚ) ^ (intLog2F A.natAbs 1 + 1) ≤ (2:ℚ) ^ (0:ℤ) :=
      zpow_le_zpow_right₀ (by norm_num) (by omega)
    rw [zpow_zero] at hle
    have hge : (1:ℚ) ≤ (A.natAbs:ℚ) := by exact_mod_cast hN1
    linarith [hlog2]
  have hsnd1 : (fl64N A.natAbs 1).2 = intLog2F A.natAbs 1 - 52 := by simp only [fl64N]
  simp only [sprintfPipeline]
  by_cases he1 : 0 ≤ (fl64N A.natAbs 1).2
  · rw [if_pos he1]
    have hq1 : (fl64N A.natAbs 1).1 * 2 ^ (fl64N A.natAbs 1).2.toNat = A.natAbs := by
      have hcast : (((fl64N A.natAbs 1).1 * 2 ^ (fl64N A.natAbs 1).2.toNat : ℕ) : ℚ)
          = (A.natAbs : ℚ) := by
        rw [← hfl1, flVal]
        push_cast
        rw [two_zpow_toNat _ he1]
      exact_mod_cast hcast
    rw [hq1]
    exact pipelineTail A.natAbs A.natAbs 100 (by norm_num) hA hN1
      (lt_of_le_of_lt hA (by norm_num)) (by norm_num) (by norm_num)
  · rw [if_neg he1]
    have he1' : (fl64N A.natAbs 1).2 < 0 := by omega
    have hq1 : (fl64N A.natAbs 1).1 = A.natAbs * 2 ^ (-(fl64N A.natAbs 1).2).toNat := by
      have hv := hfl1
      rw [flVal, two_zpow_neg_toNat _ he1'] at hv
      have h2j : ((2:ℚ) ^ ((-(fl64N A.natAbs 1).2).toNat)) ≠ 0 := by positivity
      field_simp at hv
      exact_mod_cast hv
    have hjle : (-(fl64N A.natAbs 1).2).toNat ≤ 52 := by omega
    rw [hq1]
    have h2pos : 0 < 2 ^ (-(fl64N A.natAbs 1).2).toNat :=
      Nat.pos_pow_of_pos _ (by norm_num)
    have h2le : 2 ^ (-(fl64N A.natAbs 1).2).toNat ≤ 2 ^ 52 :=
      Nat.pow_le_pow_right (by norm_num) hjle
    refine pipelineTail A.natAbs (A.natAbs * 2 ^ (-(fl64N A.natAbs 1).2).toNat)
      (100 * 2 ^ (-(fl64N A.natAbs 1).2).toNat) ?_ hA ?_ ?_ ?_ ?_
    · push_cast
      have h2j : ((2:ℚ) ^ ((-(fl64N A.natAbs 1).2).toNat)) ≠ 0 := by positivity
      rw [div_eq_div_iff (by positivity) (by norm_num : (100:ℚ) ≠ 0)]
      ring
    · have := Nat.mul_pos (show 0 < A.natAbs by omega) h2pos
      omega
    · calc A.natAbs * 2 ^ (-(fl64N A.natAbs 1).2).toNat
          ≤ 2 ^ 52 * 2 ^ 52 := Nat.mul_le_mul hA h2le
        _ < 2 ^ 120 := by norm_num
    · omega
    · calc 100 * 2 ^ (-(fl64N A.natAbs 1).2).toNat
          ≤ 100 * 2 ^ 52 := Nat.mul_le_mul_left _ h2le
        _ < 2 ^ 120 := by norm_num

/-- On every amount of magnitude at most 2^52 the binary64 rendering is the
exact two-fraction-digit decimal. -/
theorem sprintfDotTwo_eq_exact (A : Int) (hA : A.natAbs ≤ 2 ^ 52) :
    sprintfDotTwo A = exactCents A := by
  by_cases h0 : A = 0
  · subst h0
    decide
  · have hpipe := sprintfPipeline_eq A h0 hA
    simp only [sprintfDotTwo, exactCents, if_neg h0, hpipe]

/-! Sample entities for witnesses, taken from the spec's test scenarios. -/

def accChecking : Account := ⟨"a1", "Checking", false⟩

def catSalary : Category := ⟨"c1", "Salary", true⟩

def cmSample : CategoryMap := fun k => if k = "c1" then some catSalary else none

def pmSample : PayeeMap := fun k => if k = "p1" then some ⟨"p1", "Employer"⟩ else none

def txnSalary : Transaction := ⟨"t1", "a1", "c1", 500000, "p1", "", "2024-03-15", ""⟩

def txnBare : Transaction := ⟨"t2", "a1", "", -4200, "", "", "2024-03-15", ""⟩

def pmEmptyKey : PayeeMap := fun k => if k = "" then some ⟨"p1", "Employer"⟩ else none

def pmZeroEntry : PayeeMap := fun k => if k = "px" then some Payee.zeroVal else none

def txnZeroPayee : Transaction := ⟨"t3", "a1", "", 100, "px", "", "2024-03-15", ""⟩

def txnBig : Transaction :=
  ⟨"t5", "a1", "", 9007199254740993, "", "", "2024-03-15", ""⟩

def txnMin : Transaction :=
  ⟨"t6", "a1", "c1", -9223372036854775808, "p1", "", "2024-03-15", ""⟩

/-! Claim theorems. -/

/-- C1 counterexample: at the int64 minimum amount -2^63 under an income
category, Go's `transaction.Amount *= -1` wraps in int64 arithmetic and the
row renders the wrapped (still negative) value, not the formatting of the
mathematical negation +2^63 of the stored amount. -/
theorem income_flip_amount_counterexample :
    (transactionToRow cmSample pmSample accChecking txnMin)[3]?
        = some (sprintfDotTwo (-9223372036854775808))
    ∧ (transactionToRow cmSample pmSample accChecking txnMin)[3]?
        ≠ some (sprintfDotTwo (-txnMin.amount)) := by
  constructor
  · decide
  · decide

/-- C1 (amended): for every account and every transaction whose category
identifier maps in the category mapping to a category with
`is_income = true`, the row's account column is that category's display
name, its category column is the input account's display name, and its
rendered amount is the formatting of the int64-wrapped negation of the
transaction's stored amount — which equals the true negation for every
stored int64 amount other than MinInt64 = -2^63. -/
theorem income_flip_columns (cm : CategoryMap) (pm : PayeeMap) (a : Account)
    (t : Transaction) (c : Category)
    (hc : cm t.categoryID = some c) (hinc : c.isIncome = true) :
    (transactionToRow cm pm a t)[0]? = some c.name
    ∧ (transactionToRow cm pm a t)[4]? = some a.name
    ∧ (transactionToRow cm pm a t)[3]?
        = some (sprintfDotTwo (int64Wrap (-t.amount)))
    ∧ (-9223372036854775808 < t.amount → t.amount < 9223372036854775808 →
        int64Wrap (-t.amount) = -t.amount) := by
  have hl : lookupCategory cm t.categoryID = c := by simp [lookupCategory, hc]
  have hne : c ≠ Category.zeroVal := by
    intro h
    rw [h] at hinc
    simp [Category.zeroVal] at hinc
  refine ⟨?_, ?_, ?_, ?_⟩
  · rw [transactionToRow_eq]
    simp [accountCol, hl, hne, hinc]
  · rw [transactionToRow_eq]
    simp [categoryCol, hl, hne, hinc]
  · rw [transactionToRow_eq]
    simp [effAmount, hl, hne, hinc]
  · intro hlow hhigh
    unfold int64Wrap
    omega

/-- Witness for C1 at the spec's scenario: Checking / Salary / Employer with
amount 500000 renders account "Salary", category "Checking", and amount
"-5000.00", the wrapped negation coinciding with the true negation. -/
theorem income_flip_columns_witness :
    (transactionToRow cmSample pmSample accChecking txnSalary)[0]? = some "Salary"
    ∧ (transactionToRow cmSample pmSample accChecking txnSalary)[4]? = some "Checking"
    ∧ (transactionToRow cmSample pmSample accChecking txnSalary)[3]? = some "-5000.00"
    ∧ int64Wrap (-500000) = -500000 := by
  obtain ⟨h0, h4, h3, hw⟩ :=
    income_flip_columns cmSample pmSample accChecking txnSalary catSalary rfl rfl
  refine ⟨h0, h4, ?_, ?_⟩
  · rw [h3]
    decide
  · exact hw (by decide) (by decide)

/-- C2 counterexample: at the valid int64 effective amount
2^53 + 1 = 9007199254740993 (category unmapped, so no income flip), the
program's binary64 path renders "90071992547409.92" — float64(A) already
rounds to 2^53 — while the exact decimal A/100 with two fraction digits is
"90071992547409.93". -/
theorem amount_cell_counterexample :
    (transactionToRow (fun _ => none) (fun _ => none) accChecking txnBig)[3]?
        = some "90071992547409.92"
    ∧ exactCents 9007199254740993 = "90071992547409.93"
    ∧ ("90071992547409.92" : String) ≠ "90071992547409.93" := by
  refine ⟨?_, ?_, ?_⟩
  · decide
  · decide
  · decide

/-- C2 (amended): the amount cell is the `%.2f` rendering of the binary64
quotient float64(A)/100 of the effective amount A (income flip applied),
with round-half-to-even at the conversion, the division and the two-digit
decimal rounding; whenever |A| ≤ 2^52 that rendering is exactly the decimal
string A/100 with two fraction digits preserving sign: it parses back to
exactly A cents, and it starts with a minus sign iff A < 0. -/
theorem amount_cell_decimal (cm : CategoryMap) (pm : PayeeMap) (a : Account)
    (t : Transaction) :
    (transactionToRow cm pm a t)[3]? = some (sprintfDotTwo (effAmount cm t))
    ∧ ∀ A : Int, A.natAbs ≤ 2 ^ 52 →
        sprintfDotTwo A = exactCents A
        ∧ parseCents (sprintfDotTwo A) = some A
        ∧ ((sprintfDotTwo A).data.head? = some '-' ↔ A < 0) := by
  constructor
  · rw [transactionToRow_eq]
    rfl
  · intro A hA
    have heq := sprintfDotTwo_eq_exact A hA
    have hbound : A.natAbs < 10 ^ 40 := lt_of_le_of_lt hA (by norm_num)
    refine ⟨heq, ?_, ?_⟩
    · rw [heq]
      exact parse_exactCents A hbound
    · rw [heq]
      exact exactCents_head_dash A hbound

/-- Witness for C2 at the spec's scenario amount -4200: the rendered cell is
"-42.00" and parses back to -4200 cents. -/
theorem amount_cell_decimal_witness :
    (transactionToRow (fun _ => none) (fun _ => none) accChecking txnBare)[3]?
        = some "-42.00"
    ∧ parseCents "-42.00" = some (-4200) := by
  obtain ⟨hrow, hall⟩ :=
    amount_cell_decimal (fun _ => none) (fun _ => none) accChecking txnBare
  obtain ⟨heq, hparse, hdash⟩ := hall (-4200) (by norm_num)
  constructor
  · rw [hrow]
    decide
  · rw [show ("-42.00" : String) = sprintfDotTwo (-4200) from by decide]
    exact hparse

/-- C3: the loop of `Add` leaves the caller's transaction list unchanged in
every field: `range` copies each element and `transactionToRow` receives the
struct by value, so the income-flip negation happens on the callee's local
copy (`trace_snd`-style second component) while the caller-visible slice and
the rows computed from the original values are exactly the input list. -/
theorem caller_transactions_preserved (cm : CategoryMap) (pm : PayeeMap)
    (acct : Account) (txns : List Transaction) :
    (addRowsLoop cm pm acct txns).2 = txns
    ∧ (addRowsLoop cm pm acct txns).1 = txns.map (transactionToRow cm pm acct)
    ∧ ∀ t : Transaction,
        (transactionToRowTrace cm pm acct t).2 = { t with amount := effAmount cm t } :=
  ⟨addRowsLoop_snd cm pm acct txns, addRowsLoop_fst cm pm acct txns,
    fun t => trace_snd cm pm acct t⟩

/-- C4: for every transaction whose category identifier has no entry in the
category mapping, both the account column and the category column of the row
are the placeholder token "FIXME". -/
theorem unmapped_category_placeholder (cm : CategoryMap) (pm : PayeeMap)
    (a : Account) (t : Transaction) (h : cm t.categoryID = none) :
    (transactionToRow cm pm a t)[0]? = some "FIXME"
    ∧ (transactionToRow cm pm a t)[4]? = some "FIXME" := by
  have hl : lookupCategory cm t.categoryID = Category.zeroVal := by
    simp [lookupCategory, h]
  rw [transactionToRow_eq]
  constructor <;> simp [accountCol, categoryCol, hl]

/-- Witness for C4: with an empty category mapping both columns are "FIXME". -/
theorem unmapped_category_placeholder_witness :
    (transactionToRow (fun _ => none) (fun _ => none) accChecking txnBare)[0]?
        = some "FIXME"
    ∧ (transactionToRow (fun _ => none) (fun _ => none) accChecking txnBare)[4]?
        = some "FIXME" :=
  unmapped_category_placeholder (fun _ => none) (fun _ => none) accChecking txnBare rfl

/-- C5 counterexample: the code never tests the payee identifier for
emptiness, only the looked-up value against the zero struct.  With an empty
payee identifier and a non-zero mapping entry under the empty-string key, the
payee column renders that entry's name, not "FIXME" as the claim states. -/
theorem empty_payee_id_counterexample :
    (transactionToRow (fun _ => none) pmEmptyKey accChecking txnBare)[2]?
        = some "Employer"
    ∧ some "Employer" ≠ some "FIXME" := by
  constructor
  · decide
  · decide

/-- C5 amended: the payee column is "FIXME" exactly when the Go map lookup of
the payee identifier yields the zero-value `Payee` — in particular whenever
the identifier is unmapped, and whenever it is empty and the mapping has no
non-zero entry under the empty key; otherwise it is the looked-up payee's
display name. -/
theorem payee_column_resolution (cm : CategoryMap) (pm : PayeeMap)
    (a : Account) (t : Transaction) :
    (transactionToRow cm pm a t)[2]? =
      some (if lookupPayee pm t.payeeID = Payee.zeroVal then "FIXME"
        else (lookupPayee pm t.payeeID).name) := by
  rw [transactionToRow_eq]
  by_cases h : lookupPayee pm t.payeeID = Payee.zeroVal <;> simp [payeeCol, h]

/-- C6: every output stream produced by the writer is the fixed header row
followed by the data rows of the batches, so the header appears exactly once
and before any data row, no matter how many `Add` calls follow
initialization; moreover no data row ever equals the header row. -/
theorem header_once_before_data (cm : CategoryMap) (pm : PayeeMap)
    (batches : List (Account × List Transaction)) :
    (runBatches cm pm batches).out = headers :: rowsOfBatches cm pm batches
    ∧ headers ∉ rowsOfBatches cm pm batches := by
  constructor
  · have h := (foldAdd_spec batches (NewCSVWriter cm pm) rfl).1
    simpa [runBatches, NewCSVWriter] using h
  · exact headers_not_mem_rows cm pm batches

/-- C7: `Add` on a non-empty batch appends exactly the `transactionToRow`
results of the input transactions, in input order, as one unit to the output
stream, flushes the buffer (which ends empty, with the flush counter
advanced), and returns no error. -/
theorem add_batch_appends_rows (w : CsvWriter) (acct : Account)
    (txns : List Transaction) (hne : txns ≠ []) (hbuf : w.buf = []) :
    (w.Add acct txns).1.out
        = w.out ++ txns.map (transactionToRow w.categoryMap w.payeeMap acct)
    ∧ (w.Add acct txns).1.buf = []
    ∧ (w.Add acct txns).1.flushCount = w.flushCount + 2
    ∧ (w.Add acct txns).2 = none := by
  simp [CsvWriter.Add, hne, hbuf, addRowsLoop_fst]

/-- Witness for C7: adding the spec scenario's one-transaction batch to a
fresh writer appends exactly its row after the header and returns no error. -/
theorem add_batch_appends_rows_witness :
    ((NewCSVWriter cmSample pmSample).Add accChecking [txnSalary]).1.out
        = headers :: [transactionToRow cmSample pmSample accChecking txnSalary]
    ∧ ((NewCSVWriter cmSample pmSample).Add accChecking [txnSalary]).2 = none := by
  obtain ⟨h1, _, _, h4⟩ := add_batch_appends_rows (NewCSVWriter cmSample pmSample)
    accChecking [txnSalary] (List.cons_ne_nil _ _) rfl
  exact ⟨h1, h4⟩

/-- C8: `Add` with an empty transaction list returns the writer completely
unchanged (no write, no flush, same state) and no error. -/
theorem add_empty_noop (w : CsvWriter) (acct : Account) :
    w.Add acct [] = (w, none) := by
  simp [CsvWriter.Add]

/-- C9: the error column is the literal marker "[FIXME] " concatenated with
the transaction's error string when that string is non-empty and the empty
string otherwise; the row always has all seven fields, and changing only the
error annotation never changes the other six fields. -/
theorem error_column_marker (cm : CategoryMap) (pm : PayeeMap) (a : Account)
    (t : Transaction) :
    (transactionToRow cm pm a t)[6]? =
      some (if t.error = "" then "" else "[FIXME] " ++ t.error)
    ∧ (transactionToRow cm pm a t).length = 7
    ∧ ∀ e : String,
        (transactionToRow cm pm a { t with error := e }).take 6
          = (transactionToRow cm pm a t).take 6 := by
  refine ⟨?_, ?_, ?_⟩
  · rw [transactionToRow_eq]
    by_cases h : t.error = "" <;> simp [errorCol, h]
  · rw [transactionToRow_eq]
    rfl
  · intro e
    rw [transactionToRow_eq, transactionToRow_eq]
    simp [accountCol, categoryCol, payeeCol, effAmount]

/-- C10: lookup success is decided by comparing the looked-up value against
the zero-value struct, not by key membership: a mapping entry equal to the
zero value renders the placeholder exactly as if the key were unmapped, and
an empty identifier resolves to a display name whenever the mapping has a
non-zero entry under the empty-string key. -/
theorem zero_value_sentinel_semantics (cm : CategoryMap) (pm : PayeeMap)
    (a : Account) (t : Transaction) :
    (pm t.payeeID = some Payee.zeroVal →
      (transactionToRow cm pm a t)[2]? = some "FIXME")
    ∧ (cm t.categoryID = some Category.zeroVal →
      (transactionToRow cm pm a t)[0]? = some "FIXME"
      ∧ (transactionToRow cm pm a t)[4]? = some "FIXME")
    ∧ (∀ p : Payee, t.payeeID = "" → pm "" = some p → p ≠ Payee.zeroVal →
      (transactionToRow cm pm a t)[2]? = some p.name)
    ∧ (∀ c : Category, t.categoryID = "" → cm "" = some c → c ≠ Category.zeroVal →
      (transactionToRow cm pm a t)[0]?
          = some (if c.isIncome then c.name else a.name)
      ∧ (transactionToRow cm pm a t)[4]?
          = some (if c.isIncome then a.name else c.name)) := by
  refine ⟨?_, ?_, ?_, ?_⟩
  · intro h
    have hl : lookupPayee pm t.payeeID = Payee.zeroVal := by simp [lookupPayee, h]
    rw [transactionToRow_eq]
    simp [payeeCol, hl]
  · intro h
    have hl : lookupCategory cm t.categoryID = Category.zeroVal := by
      simp [lookupCategory, h]
    rw [transactionToRow_eq]
    constructor <;> simp [accountCol, categoryCol, hl]
  · intro p hid hm hne
    have hl : lookupPayee pm t.payeeID = p := by
      rw [hid]
      simp [lookupPayee, hm]
    rw [transactionToRow_eq]
    simp [payeeCol, hl, hne]
  · intro c hid hm hne
    have hl : lookupCategory cm t.categoryID = c := by
      rw [hid]
      simp [lookupCategory, hm]
    rw [transactionToRow_eq]
    constructor <;> by_cases hinc : c.isIncome <;>
      simp [accountCol, categoryCol, hl, hne, hinc]

/-- Witness for C10: a zero-value entry under key "px" renders "FIXME", and
an empty identifier with a non-zero entry under the empty key renders that
entry's name. -/
theorem zero_value_sentinel_semantics_witness :
    (transactionToRow (fun _ => none) pmZeroEntry accChecking txnZeroPayee)[2]?
        = some "FIXME"
    ∧ (transactionToRow (fun _ => none) pmEmptyKey accChecking txnBare)[2]?
        = some "Employer" := by
  constructor
  · exact (zero_value_sentinel_semantics (fun _ => none) pmZeroEntry accChecking
      txnZeroPayee).1 rfl
  · exact (zero_value_sentinel_semantics (fun _ => none) pmEmptyKey accChecking
      txnBare).2.2.1 ⟨"p1", "Employer"⟩ rfl rfl (by decide)

end Actual2CSV
